import Mathlib

/-!
# Verification of the Sequence Alignment engine

Shallow embedding of the alignment engine of the Sequence-Alignment-Visualizer
repository: the Needleman-Wunsch (global) and Smith-Waterman (local) dynamic
programming fills, the traceback loops, and the identity computation, together
with proofs of the specified properties.

Conventions of the embedding:
* Sequences are `List Char`; scores are `Int`; the identity percentage is `ℚ`.
* The DP score matrix and the move matrix are total functions `ℕ → ℕ → _`
  satisfying exactly the source recurrence (the imperative fill writes each
  cell once from already-written neighbours, so the matrices are the unique
  solution of the recurrence).
* The traceback `while` loops are embedded as fuel-indexed recursions that
  return `none` when fuel runs out, when an index would leave the matrix, or
  when a decrement would drive an index below zero; `some` therefore certifies
  termination of the loop and in-bounds behaviour of every read.
* `'?'` stands for the out-of-range (JavaScript `undefined`) read; no theorem
  below depends on an out-of-range read.
-/

namespace SeqAlign

/-- The four-valued move tag of the trace matrix (source: `enum Move`). -/
inductive Move where
  | DIAGONAL
  | UP
  | LEFT
  | STOP
deriving DecidableEq, Repr

/-- Scoring scheme (source: `interface Scoring`).  The source field `match`
is a reserved word in Lean and is rendered `matchS`. -/
structure Scoring where
  matchS : Int
  mismatch : Int
  gap : Int
deriving DecidableEq, Repr

/-- `seq1[i-1] === seq2[j-1] ? scoring.match : scoring.mismatch` at the cell
`(i+1, j+1)` (0-based character indices `i`, `j`). -/
def matchValue (s1 s2 : List Char) (sc : Scoring) (i j : ℕ) : Int :=
  if s1.getD i '?' = s2.getD j '?' then sc.matchS else sc.mismatch

/-- The global-mode (Needleman-Wunsch) score matrix: boundary
`matrix[i][0] = i*gap`, `matrix[0][j] = j*gap`, interior cells take the
best of diagonal/up/left with the diagonal-then-up-then-left tie-break. -/
def nwMatrix (s1 s2 : List Char) (sc : Scoring) : ℕ → ℕ → Int
  | 0, 0 => 0
  | i + 1, 0 => (i + 1 : Int) * sc.gap
  | 0, j + 1 => (j + 1 : Int) * sc.gap
  | i + 1, j + 1 =>
    let diagonal := nwMatrix s1 s2 sc i j + matchValue s1 s2 sc i j
    let up := nwMatrix s1 s2 sc i (j + 1) + sc.gap
    let left := nwMatrix s1 s2 sc (i + 1) j + sc.gap
    if diagonal ≥ up ∧ diagonal ≥ left then diagonal
    else if up ≥ left then up
    else left

/-- The global-mode trace matrix, mirroring the `if/else if/else` of the
source fill loop. -/
def nwTrace (s1 s2 : List Char) (sc : Scoring) : ℕ → ℕ → Move
  | 0, 0 => Move.STOP
  | _ + 1, 0 => Move.UP
  | 0, _ + 1 => Move.LEFT
  | i + 1, j + 1 =>
    let diagonal := nwMatrix s1 s2 sc i j + matchValue s1 s2 sc i j
    let up := nwMatrix s1 s2 sc i (j + 1) + sc.gap
    let left := nwMatrix s1 s2 sc (i + 1) j + sc.gap
    if diagonal ≥ up ∧ diagonal ≥ left then Move.DIAGONAL
    else if up ≥ left then Move.UP
    else Move.LEFT

/-- The local-mode (Smith-Waterman) score matrix: zero boundary, interior
cells take `Math.max(0, diagonal, up, left)`. -/
def swMatrix (s1 s2 : List Char) (sc : Scoring) : ℕ → ℕ → Int
  | 0, _ => 0
  | _ + 1, 0 => 0
  | i + 1, j + 1 =>
    let diagonal := swMatrix s1 s2 sc i j + matchValue s1 s2 sc i j
    let up := swMatrix s1 s2 sc i (j + 1) + sc.gap
    let left := swMatrix s1 s2 sc (i + 1) j + sc.gap
    max (max (max 0 diagonal) up) left

/-- The local-mode trace matrix, mirroring the source: `STOP` when the
clamped score is `0`, otherwise first candidate (diagonal, then up, then
left) equal to the score. -/
def swTrace (s1 s2 : List Char) (sc : Scoring) : ℕ → ℕ → Move
  | 0, _ => Move.STOP
  | _ + 1, 0 => Move.STOP
  | i + 1, j + 1 =>
    let diagonal := swMatrix s1 s2 sc i j + matchValue s1 s2 sc i j
    let up := swMatrix s1 s2 sc i (j + 1) + sc.gap
    let left := swMatrix s1 s2 sc (i + 1) j + sc.gap
    let score := max (max (max 0 diagonal) up) left
    if score = 0 then Move.STOP
    else if score = diagonal then Move.DIAGONAL
    else if score = up then Move.UP
    else Move.LEFT

/-- The `diagonal` candidate of the global fill at cell `(i+1, j+1)`. -/
def nwDiagonal (s1 s2 : List Char) (sc : Scoring) (i j : ℕ) : Int :=
  nwMatrix s1 s2 sc i j + matchValue s1 s2 sc i j

/-- The `up` candidate of the global fill at cell `(i+1, j+1)`. -/
def nwUp (s1 s2 : List Char) (sc : Scoring) (i j : ℕ) : Int :=
  nwMatrix s1 s2 sc i (j + 1) + sc.gap

/-- The `left` candidate of the global fill at cell `(i+1, j+1)`. -/
def nwLeft (s1 s2 : List Char) (sc : Scoring) (i j : ℕ) : Int :=
  nwMatrix s1 s2 sc (i + 1) j + sc.gap

/-- The `diagonal` candidate of the local fill at cell `(i+1, j+1)`. -/
def swDiagonal (s1 s2 : List Char) (sc : Scoring) (i j : ℕ) : Int :=
  swMatrix s1 s2 sc i j + matchValue s1 s2 sc i j

/-- The `up` candidate of the local fill at cell `(i+1, j+1)`. -/
def swUp (s1 s2 : List Char) (sc : Scoring) (i j : ℕ) : Int :=
  swMatrix s1 s2 sc i (j + 1) + sc.gap

/-- The `left` candidate of the local fill at cell `(i+1, j+1)`. -/
def swLeft (s1 s2 : List Char) (sc : Scoring) (i j : ℕ) : Int :=
  swMatrix s1 s2 sc (i + 1) j + sc.gap

/-- Matches counted by `calculateIdentity`: positions `i < s1.length` where
`s1[i] === s2[i] && s1[i] !== '-'`.  The s2 default `'*'` models that a read
past the end of `s2` (`undefined`) equals no character of `s1`. -/
def countAligned (s1 s2 : List Char) : ℕ :=
  (List.range s1.length).countP
    (fun i => decide (s1.getD i '?' = s2.getD i '*' ∧ s1.getD i '?' ≠ '-'))

/-- Source `calculateIdentity`: `0` on an empty alignment, otherwise
`(matches / alignmentLength) * 100`. -/
def calculateIdentity (s1 s2 : List Char) : ℚ :=
  if s1.length = 0 then 0
  else ((countAligned s1 s2 : ℚ) / (s1.length : ℚ)) * 100

/-- Output bundle (source: `interface AlignmentResult`).  The two matrices
are exposed through `nwMatrix`/`nwTrace`/`swMatrix`/`swTrace` instead of
being duplicated in the structure. -/
structure AlignmentResult where
  alignedSeq1 : List Char
  alignedSeq2 : List Char
  identity : ℚ
  score : Int
  path : List (ℕ × ℕ)
  seq1 : List Char
  seq2 : List Char
  scoring : Scoring
deriving DecidableEq, Repr

/-- The global-mode traceback `while (i > 0 || j > 0)` loop, embedded with
fuel.  Returns the aligned characters in walk order (the source prepends, so
its strings are the reversals of these lists), and the path in push order.
`none` models fuel exhaustion, an out-of-matrix read, or an index decrement
below zero; the `| _` move case covers `LEFT` and `STOP` exactly as the
source's final `else` does. -/
def nwWalk (s1 s2 : List Char) (sc : Scoring) :
    ℕ → ℕ → ℕ → Option (List Char × List Char × List (ℕ × ℕ))
  | 0, i, j =>
    if 0 < i ∨ 0 < j then none else some ([], [], [(0, 0)])
  | fuel + 1, i, j =>
    if 0 < i ∨ 0 < j then
      if i ≤ s1.length ∧ j ≤ s2.length then
        match nwTrace s1 s2 sc i j with
        | Move.DIAGONAL =>
          if 1 ≤ i ∧ 1 ≤ j then
            (nwWalk s1 s2 sc fuel (i - 1) (j - 1)).map
              (fun r => (s1.getD (i - 1) '?' :: r.1, s2.getD (j - 1) '?' :: r.2.1,
                (i, j) :: r.2.2))
          else none
        | Move.UP =>
          if 1 ≤ i then
            (nwWalk s1 s2 sc fuel (i - 1) j).map
              (fun r => (s1.getD (i - 1) '?' :: r.1, '-' :: r.2.1, (i, j) :: r.2.2))
          else none
        | _ =>
          if 1 ≤ j then
            (nwWalk s1 s2 sc fuel i (j - 1)).map
              (fun r => ('-' :: r.1, s2.getD (j - 1) '?' :: r.2.1, (i, j) :: r.2.2))
          else none
      else none
    else some ([], [], [(0, 0)])

/-- The local-mode traceback `while (matrix[i][j] > 0)` loop, embedded with
fuel; on exit the stop cell `(i, j)` is pushed, matching the source. -/
def swWalk (s1 s2 : List Char) (sc : Scoring) :
    ℕ → ℕ → ℕ → Option (List Char × List Char × List (ℕ × ℕ))
  | 0, i, j =>
    if i ≤ s1.length ∧ j ≤ s2.length then
      if 0 < swMatrix s1 s2 sc i j then none else some ([], [], [(i, j)])
    else none
  | fuel + 1, i, j =>
    if i ≤ s1.length ∧ j ≤ s2.length then
      if 0 < swMatrix s1 s2 sc i j then
        match swTrace s1 s2 sc i j with
        | Move.DIAGONAL =>
          if 1 ≤ i ∧ 1 ≤ j then
            (swWalk s1 s2 sc fuel (i - 1) (j - 1)).map
              (fun r => (s1.getD (i - 1) '?' :: r.1, s2.getD (j - 1) '?' :: r.2.1,
                (i, j) :: r.2.2))
          else none
        | Move.UP =>
          if 1 ≤ i then
            (swWalk s1 s2 sc fuel (i - 1) j).map
              (fun r => (s1.getD (i - 1) '?' :: r.1, '-' :: r.2.1, (i, j) :: r.2.2))
          else none
        | _ =>
          if 1 ≤ j then
            (swWalk s1 s2 sc fuel i (j - 1)).map
              (fun r => ('-' :: r.1, s2.getD (j - 1) '?' :: r.2.1, (i, j) :: r.2.2))
          else none
      else some ([], [], [(i, j)])
    else none

/-- The interior cells `(i, j)`, `1 ≤ i ≤ n`, `1 ≤ j ≤ m`, in the row-major
order of the source's fill loops. -/
def cellList (n m : ℕ) : List (ℕ × ℕ) :=
  (List.range n).flatMap (fun i => (List.range m).map (fun j => (i + 1, j + 1)))

/-- One step of the running-maximum tracking of the local fill:
`if (score > maxScore) { maxScore = score; maxI = i; maxJ = j; }`. -/
def swMaxStep (s1 s2 : List Char) (sc : Scoring) (acc : Int × ℕ × ℕ) (p : ℕ × ℕ) :
    Int × ℕ × ℕ :=
  if swMatrix s1 s2 sc p.1 p.2 > acc.1 then (swMatrix s1 s2 sc p.1 p.2, p.1, p.2) else acc

/-- The `(maxScore, maxI, maxJ)` triple after the local fill, starting from
`(0, 0, 0)` and scanning the cells in row-major order. -/
def swMaxFold (s1 s2 : List Char) (sc : Scoring) : Int × ℕ × ℕ :=
  (cellList s1.length s2.length).foldl (swMaxStep s1 s2 sc) (0, 0, 0)

/-- Source `runNeedlemanWunsch`.  Fuel `n + m` is exactly the length of the
longest possible traceback; the walk is proved to succeed below. -/
def runNeedlemanWunsch (seq1 seq2 : List Char) (scoring : Scoring) :
    Option AlignmentResult :=
  let n := seq1.length
  let m := seq2.length
  (nwWalk seq1 seq2 scoring (n + m) n m).map (fun r =>
    { alignedSeq1 := r.1.reverse
      alignedSeq2 := r.2.1.reverse
      identity := calculateIdentity r.1.reverse r.2.1.reverse
      score := nwMatrix seq1 seq2 scoring n m
      path := r.2.2.reverse
      seq1 := seq1
      seq2 := seq2
      scoring := scoring })

/-- Source `runSmithWaterman`: traceback starts at the recorded maximum cell
and the returned score is the recorded maximum. -/
def runSmithWaterman (seq1 seq2 : List Char) (scoring : Scoring) :
    Option AlignmentResult :=
  let n := seq1.length
  let m := seq2.length
  let best := swMaxFold seq1 seq2 scoring
  (swWalk seq1 seq2 scoring (n + m) best.2.1 best.2.2).map (fun r =>
    { alignedSeq1 := r.1.reverse
      alignedSeq2 := r.2.1.reverse
      identity := calculateIdentity r.1.reverse r.2.1.reverse
      score := best.1
      path := r.2.2.reverse
      seq1 := seq1
      seq2 := seq2
      scoring := scoring })

/-- Modelled from the spec (claim C9's replay): starting from a cell,
repeatedly apply the recorded global-mode move (`DIAGONAL` to `(i-1, j-1)`,
`UP` to `(i-1, j)`, otherwise to `(i, j-1)`) until `(0, 0)` is reached,
collecting the visited cells. -/
def replayNW (s1 s2 : List Char) (sc : Scoring) : ℕ → ℕ → ℕ → List (ℕ × ℕ)
  | 0, i, j => [(i, j)]
  | fuel + 1, i, j =>
    if 0 < i ∨ 0 < j then
      (i, j) ::
        (match nwTrace s1 s2 sc i j with
         | Move.DIAGONAL => replayNW s1 s2 sc fuel (i - 1) (j - 1)
         | Move.UP => replayNW s1 s2 sc fuel (i - 1) j
         | _ => replayNW s1 s2 sc fuel i (j - 1))
    else [(i, j)]

/-- Modelled from the spec (claim C9's replay): starting from a cell,
repeatedly apply the recorded local-mode move until a cell whose matrix
value is `0` is reached, collecting the visited cells. -/
def replaySW (s1 s2 : List Char) (sc : Scoring) : ℕ → ℕ → ℕ → List (ℕ × ℕ)
  | 0, i, j => [(i, j)]
  | fuel + 1, i, j =>
    if 0 < swMatrix s1 s2 sc i j then
      (i, j) ::
        (match swTrace s1 s2 sc i j with
         | Move.DIAGONAL => replaySW s1 s2 sc fuel (i - 1) (j - 1)
         | Move.UP => replaySW s1 s2 sc fuel (i - 1) j
         | _ => replaySW s1 s2 sc fuel i (j - 1))
    else [(i, j)]

/-! ## Unfolding equations and boundary facts -/

lemma nwMatrix_succ_succ (s1 s2 : List Char) (sc : Scoring) (i j : ℕ) :
    nwMatrix s1 s2 sc (i + 1) (j + 1) =
      if nwDiagonal s1 s2 sc i j ≥ nwUp s1 s2 sc i j ∧
          nwDiagonal s1 s2 sc i j ≥ nwLeft s1 s2 sc i j then
        nwDiagonal s1 s2 sc i j
      else if nwUp s1 s2 sc i j ≥ nwLeft s1 s2 sc i j then nwUp s1 s2 sc i j
      else nwLeft s1 s2 sc i j := by
  simp only [nwMatrix, nwDiagonal, nwUp, nwLeft]

lemma nwTrace_succ_succ (s1 s2 : List Char) (sc : Scoring) (i j : ℕ) :
    nwTrace s1 s2 sc (i + 1) (j + 1) =
      if nwDiagonal s1 s2 sc i j ≥ nwUp s1 s2 sc i j ∧
          nwDiagonal s1 s2 sc i j ≥ nwLeft s1 s2 sc i j then
        Move.DIAGONAL
      else if nwUp s1 s2 sc i j ≥ nwLeft s1 s2 sc i j then Move.UP
      else Move.LEFT := by
  simp only [nwTrace, nwDiagonal, nwUp, nwLeft]

lemma swMatrix_succ_succ (s1 s2 : List Char) (sc : Scoring) (i j : ℕ) :
    swMatrix s1 s2 sc (i + 1) (j + 1) =
      max (max (max 0 (swDiagonal s1 s2 sc i j)) (swUp s1 s2 sc i j))
        (swLeft s1 s2 sc i j) := by
  simp only [swMatrix, swDiagonal, swUp, swLeft]

lemma swTrace_succ_succ (s1 s2 : List Char) (sc : Scoring) (i j : ℕ) :
    swTrace s1 s2 sc (i + 1) (j + 1) =
      (if swMatrix s1 s2 sc (i + 1) (j + 1) = 0 then Move.STOP
       else if swMatrix s1 s2 sc (i + 1) (j + 1) = swDiagonal s1 s2 sc i j then
         Move.DIAGONAL
       else if swMatrix s1 s2 sc (i + 1) (j + 1) = swUp s1 s2 sc i j then Move.UP
       else Move.LEFT) := by
  conv_lhs => simp only [swTrace]
  rw [swMatrix_succ_succ]
  simp only [swDiagonal, swUp, swLeft]

lemma nwMatrix_row0 (s1 s2 : List Char) (sc : Scoring) (j : ℕ) :
    nwMatrix s1 s2 sc 0 j = (j : Int) * sc.gap := by
  cases j with
  | zero => simp [nwMatrix]
  | succ j => simp [nwMatrix]

lemma nwMatrix_col0 (s1 s2 : List Char) (sc : Scoring) (i : ℕ) :
    nwMatrix s1 s2 sc i 0 = (i : Int) * sc.gap := by
  cases i with
  | zero => simp [nwMatrix]
  | succ i => simp [nwMatrix]

lemma swMatrix_row0 (s1 s2 : List Char) (sc : Scoring) (j : ℕ) :
    swMatrix s1 s2 sc 0 j = 0 := by
  simp [swMatrix]

lemma swMatrix_col0 (s1 s2 : List Char) (sc : Scoring) (i : ℕ) :
    swMatrix s1 s2 sc i 0 = 0 := by
  cases i with
  | zero => simp [swMatrix]
  | succ i => simp [swMatrix]

lemma swMatrix_nonneg (s1 s2 : List Char) (sc : Scoring) (i j : ℕ) :
    0 ≤ swMatrix s1 s2 sc i j := by
  match i, j with
  | 0, j => rw [swMatrix_row0]
  | i + 1, 0 => rw [swMatrix_col0]
  | i + 1, j + 1 => rw [swMatrix_succ_succ]; omega

lemma swMatrix_pos_bounds (s1 s2 : List Char) (sc : Scoring) {i j : ℕ}
    (h : 0 < swMatrix s1 s2 sc i j) : 1 ≤ i ∧ 1 ≤ j := by
  match i, j with
  | 0, j => rw [swMatrix_row0] at h; omega
  | i + 1, 0 => rw [swMatrix_col0] at h; omega
  | i + 1, j + 1 => omega

/-- The local-mode tie-break, restated over the raw candidates: for a cell of
strictly positive clamped score, the `score === candidate` cascade of the
source agrees with the diagonal-then-up-then-left `≥` tie-break. -/
lemma swTrace_tiebreak (s1 s2 : List Char) (sc : Scoring) (i j : ℕ)
    (hpos : 0 < swMatrix s1 s2 sc (i + 1) (j + 1)) :
    (swDiagonal s1 s2 sc i j ≥ swUp s1 s2 sc i j ∧
        swDiagonal s1 s2 sc i j ≥ swLeft s1 s2 sc i j →
      swTrace s1 s2 sc (i + 1) (j + 1) = Move.DIAGONAL) ∧
    (¬(swDiagonal s1 s2 sc i j ≥ swUp s1 s2 sc i j ∧
        swDiagonal s1 s2 sc i j ≥ swLeft s1 s2 sc i j) →
      swUp s1 s2 sc i j ≥ swLeft s1 s2 sc i j →
      swTrace s1 s2 sc (i + 1) (j + 1) = Move.UP) ∧
    (¬(swDiagonal s1 s2 sc i j ≥ swUp s1 s2 sc i j ∧
        swDiagonal s1 s2 sc i j ≥ swLeft s1 s2 sc i j) →
      ¬(swUp s1 s2 sc i j ≥ swLeft s1 s2 sc i j) →
      swTrace s1 s2 sc (i + 1) (j + 1) = Move.LEFT) := by
  have hval := swMatrix_succ_succ s1 s2 sc i j
  rw [swTrace_succ_succ]
  set d := swDiagonal s1 s2 sc i j with hd
  set u := swUp s1 s2 sc i j with hu
  set l := swLeft s1 s2 sc i j with hl
  refine ⟨?_, ?_, ?_⟩
  · rintro ⟨h1, h2⟩
    rw [if_neg (by omega), if_pos (by omega)]
  · intro h1 h2
    rw [if_neg (by omega), if_neg (by omega), if_pos (by omega)]
  · intro h1 h2
    rw [if_neg (by omega), if_neg (by omega), if_neg (by omega)]

/-! ## Traceback walk lemmas -/

/-- Structural facts propagated along a successful global traceback: the two
aligned lists stay the same length, the path has one more cell than there are
aligned positions, the path starts (in push order) at the walk's start cell,
and the path is exactly the trace replay of claim C9. -/
lemma nwWalk_spec (s1 s2 : List Char) (sc : Scoring) :
    ∀ fuel i j a1 a2 p, nwWalk s1 s2 sc fuel i j = some (a1, a2, p) →
      a1.length = a2.length ∧ p.length = a1.length + 1 ∧
      p.head? = some (i, j) ∧ p = replayNW s1 s2 sc fuel i j := by
  intro fuel
  induction fuel with
  | zero =>
    intro i j a1 a2 p h
    rw [nwWalk] at h
    by_cases hij : 0 < i ∨ 0 < j
    · rw [if_pos hij] at h; exact absurd h (by simp)
    · rw [if_neg hij] at h
      simp only [Option.some.injEq, Prod.mk.injEq] at h
      obtain ⟨h1, h2, h3⟩ := h
      subst h1; subst h2; subst h3
      have hi : i = 0 := by omega
      have hj : j = 0 := by omega
      subst hi; subst hj
      exact ⟨rfl, rfl, rfl, by rw [replayNW]⟩
  | succ fuel ih =>
    intro i j a1 a2 p h
    rw [nwWalk] at h
    by_cases hij : 0 < i ∨ 0 < j
    · rw [if_pos hij] at h
      by_cases hb : i ≤ s1.length ∧ j ≤ s2.length
      · rw [if_pos ⟨hb.1, hb.2⟩] at h
        rcases hm : nwTrace s1 s2 sc i j with _ | _ | _ | _ <;> rw [hm] at h
        · by_cases hg : 1 ≤ i ∧ 1 ≤ j
          · rw [if_pos hg, Option.map_eq_some'] at h
            obtain ⟨⟨b1, b2, bp⟩, hw, heq⟩ := h
            simp only [Prod.mk.injEq] at heq
            obtain ⟨e1, e2, e3⟩ := heq
            subst e1; subst e2; subst e3
            obtain ⟨L1, L2, _, Rp⟩ := ih _ _ _ _ _ hw
            refine ⟨by simp [L1], by simp [L2], rfl, ?_⟩
            rw [replayNW, if_pos hij, hm, Rp]
          · rw [if_neg hg] at h; exact absurd h (by simp)
        · by_cases hg : 1 ≤ i
          · rw [if_pos hg, Option.map_eq_some'] at h
            obtain ⟨⟨b1, b2, bp⟩, hw, heq⟩ := h
            simp only [Prod.mk.injEq] at heq
            obtain ⟨e1, e2, e3⟩ := heq
            subst e1; subst e2; subst e3
            obtain ⟨L1, L2, _, Rp⟩ := ih _ _ _ _ _ hw
            refine ⟨by simp [L1], by simp [L2], rfl, ?_⟩
            rw [replayNW, if_pos hij, hm, Rp]
          · rw [if_neg hg] at h; exact absurd h (by simp)
        · by_cases hg : 1 ≤ j
          · rw [if_pos hg, Option.map_eq_some'] at h
            obtain ⟨⟨b1, b2, bp⟩, hw, heq⟩ := h
            simp only [Prod.mk.injEq] at heq
            obtain ⟨e1, e2, e3⟩ := heq
            subst e1; subst e2; subst e3
            obtain ⟨L1, L2, _, Rp⟩ := ih _ _ _ _ _ hw
            refine ⟨by simp [L1], by simp [L2], rfl, ?_⟩
            rw [replayNW, if_pos hij, hm, Rp]
          · rw [if_neg hg] at h; exact absurd h (by simp)
        · by_cases hg : 1 ≤ j
          · rw [if_pos hg, Option.map_eq_some'] at h
            obtain ⟨⟨b1, b2, bp⟩, hw, heq⟩ := h
            simp only [Prod.mk.injEq] at heq
            obtain ⟨e1, e2, e3⟩ := heq
            subst e1; subst e2; subst e3
            obtain ⟨L1, L2, _, Rp⟩ := ih _ _ _ _ _ hw
            refine ⟨by simp [L1], by simp [L2], rfl, ?_⟩
            rw [replayNW, if_pos hij, hm, Rp]
          · rw [if_neg hg] at h; exact absurd h (by simp)
      · rw [if_neg hb] at h; exact absurd h (by simp)
    · rw [if_neg hij] at h
      simp only [Option.some.injEq, Prod.mk.injEq] at h
      obtain ⟨h1, h2, h3⟩ := h
      subst h1; subst h2; subst h3
      have hi : i = 0 := by omega
      have hj : j = 0 := by omega
      subst hi; subst hj
      exact ⟨rfl, rfl, rfl, by rw [replayNW, if_neg (by omega)]⟩

/-- The analogue of `nwWalk_spec` for the local traceback. -/
lemma swWalk_spec (s1 s2 : List Char) (sc : Scoring) :
    ∀ fuel i j a1 a2 p, swWalk s1 s2 sc fuel i j = some (a1, a2, p) →
      a1.length = a2.length ∧ p.length = a1.length + 1 ∧
      p.head? = some (i, j) ∧ p = replaySW s1 s2 sc fuel i j := by
  intro fuel
  induction fuel with
  | zero =>
    intro i j a1 a2 p h
    rw [swWalk] at h
    by_cases hb : i ≤ s1.length ∧ j ≤ s2.length
    · rw [if_pos ⟨hb.1, hb.2⟩] at h
      by_cases hp : 0 < swMatrix s1 s2 sc i j
      · rw [if_pos hp] at h; exact absurd h (by simp)
      · rw [if_neg hp] at h
        simp only [Option.some.injEq, Prod.mk.injEq] at h
        obtain ⟨h1, h2, h3⟩ := h
        subst h1; subst h2; subst h3
        exact ⟨rfl, rfl, rfl, by rw [replaySW]⟩
    · rw [if_neg hb] at h; exact absurd h (by simp)
  | succ fuel ih =>
    intro i j a1 a2 p h
    rw [swWalk] at h
    by_cases hb : i ≤ s1.length ∧ j ≤ s2.length
    · rw [if_pos ⟨hb.1, hb.2⟩] at h
      by_cases hp : 0 < swMatrix s1 s2 sc i j
      · rw [if_pos hp] at h
        rcases hm : swTrace s1 s2 sc i j with _ | _ | _ | _ <;> rw [hm] at h
        · by_cases hg : 1 ≤ i ∧ 1 ≤ j
          · rw [if_pos hg, Option.map_eq_some'] at h
            obtain ⟨⟨b1, b2, bp⟩, hw, heq⟩ := h
            simp only [Prod.mk.injEq] at heq
            obtain ⟨e1, e2, e3⟩ := heq
            subst e1; subst e2; subst e3
            obtain ⟨L1, L2, _, Rp⟩ := ih _ _ _ _ _ hw
            refine ⟨by simp [L1], by simp [L2], rfl, ?_⟩
            rw [replaySW, if_pos hp, hm, Rp]
          · rw [if_neg hg] at h; exact absurd h (by simp)
        · by_cases hg : 1 ≤ i
          · rw [if_pos hg, Option.map_eq_some'] at h
            obtain ⟨⟨b1, b2, bp⟩, hw, heq⟩ := h
            simp only [Prod.mk.injEq] at heq
            obtain ⟨e1, e2, e3⟩ := heq
            subst e1; subst e2; subst e3
            obtain ⟨L1, L2, _, Rp⟩ := ih _ _ _ _ _ hw
            refine ⟨by simp [L1], by simp [L2], rfl, ?_⟩
            rw [replaySW, if_pos hp, hm, Rp]
          · rw [if_neg hg] at h; exact absurd h (by simp)
        · by_cases hg : 1 ≤ j
          · rw [if_pos hg, Option.map_eq_some'] at h
            obtain ⟨⟨b1, b2, bp⟩, hw, heq⟩ := h
            simp only [Prod.mk.injEq] at heq
            obtain ⟨e1, e2, e3⟩ := heq
            subst e1; subst e2; subst e3
            obtain ⟨L1, L2, _, Rp⟩ := ih _ _ _ _ _ hw
            refine ⟨by simp [L1], by simp [L2], rfl, ?_⟩
            rw [replaySW, if_pos hp, hm, Rp]
          · rw [if_neg hg] at h; exact absurd h (by simp)
        · by_cases hg : 1 ≤ j
          · rw [if_pos hg, Option.map_eq_some'] at h
            obtain ⟨⟨b1, b2, bp⟩, hw, heq⟩ := h
            simp only [Prod.mk.injEq] at heq
            obtain ⟨e1, e2, e3⟩ := heq
            subst e1; subst e2; subst e3
            obtain ⟨L1, L2, _, Rp⟩ := ih _ _ _ _ _ hw
            refine ⟨by simp [L1], by simp [L2], rfl, ?_⟩
            rw [replaySW, if_pos hp, hm, Rp]
          · rw [if_neg hg] at h; exact absurd h (by simp)
      · rw [if_neg hp] at h
        simp only [Option.some.injEq, Prod.mk.injEq] at h
        obtain ⟨h1, h2, h3⟩ := h
        subst h1; subst h2; subst h3
        exact ⟨rfl, rfl, rfl, by rw [replaySW, if_neg hp]⟩
    · rw [if_neg hb] at h; exact absurd h (by simp)

lemma nwTrace_col0 (s1 s2 : List Char) (sc : Scoring) (i : ℕ) :
    nwTrace s1 s2 sc (i + 1) 0 = Move.UP := by
  simp [nwTrace]

lemma nwTrace_row0 (s1 s2 : List Char) (sc : Scoring) (j : ℕ) :
    nwTrace s1 s2 sc 0 (j + 1) = Move.LEFT := by
  simp [nwTrace]

/-- Totality of the global traceback: starting anywhere inside the matrix
with fuel at least `i + j`, the bounds-checked walk succeeds — each
iteration strictly decreases `i + j`, no index underflows (row 0 records
`LEFT`, column 0 records `UP`), and every read stays inside the matrix. -/
lemma nwWalk_total (s1 s2 : List Char) (sc : Scoring) :
    ∀ fuel i j, i + j ≤ fuel → i ≤ s1.length → j ≤ s2.length →
      (nwWalk s1 s2 sc fuel i j).isSome := by
  intro fuel
  induction fuel with
  | zero =>
    intro i j hf hi hj
    rw [nwWalk, if_neg (by omega)]
    simp
  | succ fuel ih =>
    intro i j hf hi hj
    by_cases hij : 0 < i ∨ 0 < j
    · rw [nwWalk, if_pos hij, if_pos ⟨hi, hj⟩]
      rcases i with _ | i' <;> rcases j with _ | j'
      · omega
      · rw [nwTrace_row0]
        simpa using ih 0 j' (by omega) (by omega) (by omega)
      · rw [nwTrace_col0]
        simpa using ih i' 0 (by omega) (by omega) (by omega)
      · rcases hm : nwTrace s1 s2 sc (i' + 1) (j' + 1) with _ | _ | _ | _
        · simpa using ih i' j' (by omega) (by omega) (by omega)
        · simpa using ih i' (j' + 1) (by omega) (by omega) (by omega)
        · simpa using ih (i' + 1) j' (by omega) (by omega) (by omega)
        · simpa using ih (i' + 1) j' (by omega) (by omega) (by omega)
    · rw [nwWalk, if_neg hij]
      simp

/-- Totality of the local traceback: a strictly positive cell is interior
(row 0 and column 0 hold `0`), so its recorded move decrements an index
safely; fuel `i + j` again suffices. -/
lemma swWalk_total (s1 s2 : List Char) (sc : Scoring) :
    ∀ fuel i j, i + j ≤ fuel → i ≤ s1.length → j ≤ s2.length →
      (swWalk s1 s2 sc fuel i j).isSome := by
  intro fuel
  induction fuel with
  | zero =>
    intro i j hf hi hj
    have hi0 : i = 0 := by omega
    have hj0 : j = 0 := by omega
    subst hi0; subst hj0
    rw [swWalk, if_pos ⟨hi, hj⟩, if_neg (by simp [swMatrix_row0])]
    simp
  | succ fuel ih =>
    intro i j hf hi hj
    rw [swWalk, if_pos ⟨hi, hj⟩]
    by_cases hp : 0 < swMatrix s1 s2 sc i j
    · rw [if_pos hp]
      obtain ⟨h1, h2⟩ := swMatrix_pos_bounds s1 s2 sc hp
      rcases hm : swTrace s1 s2 sc i j with _ | _ | _ | _
      · simpa [h1, h2] using ih (i - 1) (j - 1) (by omega) (by omega) (by omega)
      · simpa [h1] using ih (i - 1) j (by omega) (by omega) (by omega)
      · simpa [h2] using ih i (j - 1) (by omega) (by omega) (by omega)
      · simpa [h2] using ih i (j - 1) (by omega) (by omega) (by omega)
    · rw [if_neg hp]
      simp

/-! ## Maximum-tracking fold lemmas -/

/-- Row-major order on cells: the strict lexicographic order in which the
fill loops encounter them. -/
def cellLt (a b : ℕ × ℕ) : Prop := a.1 < b.1 ∨ (a.1 = b.1 ∧ a.2 < b.2)

lemma mem_cellList {n m : ℕ} {p : ℕ × ℕ} :
    p ∈ cellList n m ↔ 1 ≤ p.1 ∧ p.1 ≤ n ∧ 1 ≤ p.2 ∧ p.2 ≤ m := by
  rcases p with ⟨i, j⟩
  simp only [cellList, List.mem_flatMap, List.mem_map, List.mem_range]
  constructor
  · rintro ⟨a, ha, b, hb, h⟩
    simp only [Prod.mk.injEq] at h
    omega
  · rintro ⟨h1, h2, h3, h4⟩
    exact ⟨i - 1, by omega, j - 1, by omega, by simp only [Prod.mk.injEq]; omega⟩

lemma cellList_pairwise (n m : ℕ) : (cellList n m).Pairwise cellLt := by
  induction n with
  | zero => simp [cellList]
  | succ n ih =>
    have hsplit : cellList (n + 1) m =
        cellList n m ++ (List.range m).map (fun j => (n + 1, j + 1)) := by
      show (List.range (n + 1)).flatMap _ = _
      rw [List.range_succ, List.flatMap_append]
      simp [cellList]
    rw [hsplit, List.pairwise_append]
    refine ⟨ih, ?_, ?_⟩
    · rw [List.pairwise_map]
      refine List.Pairwise.imp ?_ (List.pairwise_lt_range m)
      intro a b hab
      right
      exact ⟨rfl, by omega⟩
    · intro a ha b hb
      have ha' := mem_cellList.mp ha
      simp only [List.mem_map, List.mem_range] at hb
      obtain ⟨c, _, hc⟩ := hb
      have hb1 : b.1 = n + 1 := by rw [← hc]
      left
      omega

/-- The running-maximum fold either returns its accumulator unchanged (and
then no scanned cell strictly beats the accumulator), or returns the score
and coordinates of the first scanned cell attaining the final maximum. -/
lemma foldl_swMaxStep_spec (s1 s2 : List Char) (sc : Scoring) :
    ∀ (l : List (ℕ × ℕ)) (acc : Int × ℕ × ℕ),
      (l.foldl (swMaxStep s1 s2 sc) acc = acc ∧
        ∀ q ∈ l, swMatrix s1 s2 sc q.1 q.2 ≤ acc.1) ∨
      (∃ l₁ p l₂, l = l₁ ++ p :: l₂ ∧
        (l.foldl (swMaxStep s1 s2 sc) acc).1 = swMatrix s1 s2 sc p.1 p.2 ∧
        (l.foldl (swMaxStep s1 s2 sc) acc).2 = p ∧
        acc.1 < swMatrix s1 s2 sc p.1 p.2 ∧
        (∀ q ∈ l₁, swMatrix s1 s2 sc q.1 q.2 < swMatrix s1 s2 sc p.1 p.2) ∧
        (∀ q ∈ l₂, swMatrix s1 s2 sc q.1 q.2 ≤ swMatrix s1 s2 sc p.1 p.2)) := by
  intro l
  induction l with
  | nil =>
    intro acc
    left
    exact ⟨rfl, by simp⟩
  | cons a l ih =>
    intro acc
    rw [List.foldl_cons]
    by_cases ha : swMatrix s1 s2 sc a.1 a.2 > acc.1
    · have hstep : swMaxStep s1 s2 sc acc a = (swMatrix s1 s2 sc a.1 a.2, a.1, a.2) := by
        rw [swMaxStep, if_pos ha]
      rw [hstep]
      rcases ih (swMatrix s1 s2 sc a.1 a.2, a.1, a.2) with
        ⟨heq, hall⟩ | ⟨l₁, p, l₂, hsplit, hv, hc, hlt, h₁, h₂⟩
      · right
        refine ⟨[], a, l, by simp, ?_, ?_, ha, by simp, ?_⟩
        · rw [heq]
        · rw [heq]
        · intro q hq
          exact hall q hq
      · right
        refine ⟨a :: l₁, p, l₂, by simp [hsplit], hv, hc, by omega, ?_, h₂⟩
        intro q hq
        rcases List.mem_cons.mp hq with h | h
        · subst h; omega
        · exact h₁ q h
    · have hstep : swMaxStep s1 s2 sc acc a = acc := by
        rw [swMaxStep, if_neg ha]
      rw [hstep]
      rcases ih acc with ⟨heq, hall⟩ | ⟨l₁, p, l₂, hsplit, hv, hc, hlt, h₁, h₂⟩
      · left
        refine ⟨heq, ?_⟩
        intro q hq
        rcases List.mem_cons.mp hq with h | h
        · subst h; omega
        · exact hall q h
      · right
        refine ⟨a :: l₁, p, l₂, by simp [hsplit], hv, hc, hlt, ?_, h₂⟩
        intro q hq
        rcases List.mem_cons.mp hq with h | h
        · subst h; omega
        · exact h₁ q h

/-- The recorded maximum score is nonnegative, bounds every matrix cell, is
attained at the recorded cell, the recorded cell is inside the matrix, and
every cell strictly earlier in row-major order scores strictly less. -/
lemma swMaxFold_spec (s1 s2 : List Char) (sc : Scoring) :
    0 ≤ (swMaxFold s1 s2 sc).1 ∧
    (∀ i j, i ≤ s1.length → j ≤ s2.length →
      swMatrix s1 s2 sc i j ≤ (swMaxFold s1 s2 sc).1) ∧
    swMatrix s1 s2 sc (swMaxFold s1 s2 sc).2.1 (swMaxFold s1 s2 sc).2.2 =
      (swMaxFold s1 s2 sc).1 ∧
    (swMaxFold s1 s2 sc).2.1 ≤ s1.length ∧ (swMaxFold s1 s2 sc).2.2 ≤ s2.length ∧
    (∀ i j, i ≤ s1.length → j ≤ s2.length →
      cellLt (i, j) ((swMaxFold s1 s2 sc).2.1, (swMaxFold s1 s2 sc).2.2) →
      swMatrix s1 s2 sc i j < (swMaxFold s1 s2 sc).1) := by
  have hpw := cellList_pairwise s1.length s2.length
  rcases foldl_swMaxStep_spec s1 s2 sc (cellList s1.length s2.length) (0, 0, 0) with
    ⟨heq, hall⟩ | ⟨l₁, p, l₂, hsplit, hv, hc, hlt, h₁, h₂⟩
  · have hres : swMaxFold s1 s2 sc = (0, 0, 0) := heq
    have e1 : (swMaxFold s1 s2 sc).1 = 0 := by rw [hres]
    have e2 : (swMaxFold s1 s2 sc).2.1 = 0 := by rw [hres]
    have e3 : (swMaxFold s1 s2 sc).2.2 = 0 := by rw [hres]
    rw [e1, e2, e3]
    refine ⟨le_refl 0, ?_, by rw [swMatrix_row0], by omega, by omega, ?_⟩
    · intro i j hi hj
      match i, j with
      | 0, j => rw [swMatrix_row0]
      | i + 1, 0 => rw [swMatrix_col0]
      | i + 1, j + 1 =>
        exact hall (i + 1, j + 1) (mem_cellList.mpr ⟨by omega, by omega, by omega, by omega⟩)
    · intro i j _ _ hcl
      rcases hcl with h | h <;> simp only [] at h <;> omega
  · have hpmem : p ∈ cellList s1.length s2.length := by
      rw [hsplit]; exact List.mem_append.mpr (Or.inr (List.mem_cons_self p l₂))
    have hpb := mem_cellList.mp hpmem
    have hpos : 0 < swMatrix s1 s2 sc p.1 p.2 := by
      simpa using hlt
    have hv' : (swMaxFold s1 s2 sc).1 = swMatrix s1 s2 sc p.1 p.2 := hv
    have hc' : (swMaxFold s1 s2 sc).2 = p := hc
    have hmem_all : ∀ q ∈ cellList s1.length s2.length,
        swMatrix s1 s2 sc q.1 q.2 ≤ (swMaxFold s1 s2 sc).1 := by
      intro q hq
      rw [hsplit] at hq
      rcases List.mem_append.mp hq with h | h
      · have := h₁ q h; omega
      · rcases List.mem_cons.mp h with h | h
        · subst h; omega
        · have := h₂ q h; omega
    refine ⟨by omega, ?_, ?_, ?_, ?_, ?_⟩
    · intro i j hi hj
      match i, j with
      | 0, j => rw [swMatrix_row0]; omega
      | i + 1, 0 => rw [swMatrix_col0]; omega
      | i + 1, j + 1 =>
        exact hmem_all (i + 1, j + 1)
          (mem_cellList.mpr ⟨by omega, by omega, by omega, by omega⟩)
    · rw [hv', hc']
    · rw [hc']; omega
    · rw [hc']; omega
    · intro i j hi hj hcl
      rw [hc'] at hcl
      rw [hv']
      match i, j, hcl with
      | 0, j, _ => rw [swMatrix_row0]; omega
      | i + 1, 0, _ => rw [swMatrix_col0]; omega
      | i + 1, j + 1, hcl =>
        have hqmem : (i + 1, j + 1) ∈ cellList s1.length s2.length :=
          mem_cellList.mpr ⟨by omega, by omega, by omega, by omega⟩
        rw [hsplit] at hqmem
        rcases List.mem_append.mp hqmem with h | h
        · exact h₁ (i + 1, j + 1) h
        · rcases List.mem_cons.mp h with h | h
          · exfalso
            have : (i + 1 : ℕ) = p.1 ∧ (j + 1 : ℕ) = p.2 := by
              rw [← h]; exact ⟨rfl, rfl⟩
            rcases hcl with hcl | hcl <;> omega
          · exfalso
            rw [hsplit] at hpw
            have hrel := (List.pairwise_append.mp hpw).2.1
            have := (List.pairwise_cons.mp hrel).1 _ h
            rcases this with hrr | hrr <;> rcases hcl with hcl | hcl <;> omega

/-! ## Identity lemmas and result-shape lemmas -/

lemma countAligned_le (s1 s2 : List Char) : countAligned s1 s2 ≤ s1.length := by
  rw [countAligned]
  calc (List.range s1.length).countP _ ≤ (List.range s1.length).length :=
        List.countP_le_length _
    _ = s1.length := List.length_range _

lemma calculateIdentity_spec (s1 s2 : List Char) :
    calculateIdentity s1 s2 = 100 * (countAligned s1 s2 : ℚ) / (s1.length : ℚ) ∧
    (s1.length = 0 → calculateIdentity s1 s2 = 0) ∧
    0 ≤ calculateIdentity s1 s2 ∧ calculateIdentity s1 s2 ≤ 100 := by
  by_cases h : s1.length = 0
  · rw [calculateIdentity, if_pos h, h]
    norm_num
  · rw [calculateIdentity, if_neg h]
    have hlen : (0 : ℚ) < (s1.length : ℚ) := by
      exact_mod_cast Nat.pos_of_ne_zero h
    have hle : (countAligned s1 s2 : ℚ) ≤ (s1.length : ℚ) := by
      exact_mod_cast countAligned_le s1 s2
    have hone : (countAligned s1 s2 : ℚ) / (s1.length : ℚ) ≤ 1 :=
      (div_le_one hlen).mpr hle
    have hnn : (0 : ℚ) ≤ (countAligned s1 s2 : ℚ) / (s1.length : ℚ) :=
      div_nonneg (by positivity) (le_of_lt hlen)
    refine ⟨by ring, fun h0 => absurd h0 h, by positivity, ?_⟩
    nlinarith

/-- A successful global run is exactly the reversal-packaging of a
successful walk from `(n, m)` with fuel `n + m`. -/
lemma runNeedlemanWunsch_eq (s1 s2 : List Char) (sc : Scoring) :
    ∃ a1 a2 p,
      nwWalk s1 s2 sc (s1.length + s2.length) s1.length s2.length =
        some (a1, a2, p) ∧
      runNeedlemanWunsch s1 s2 sc = some
        { alignedSeq1 := a1.reverse
          alignedSeq2 := a2.reverse
          identity := calculateIdentity a1.reverse a2.reverse
          score := nwMatrix s1 s2 sc s1.length s2.length
          path := p.reverse
          seq1 := s1
          seq2 := s2
          scoring := sc } := by
  have h := nwWalk_total s1 s2 sc (s1.length + s2.length) s1.length s2.length
    (le_refl _) (le_refl _) (le_refl _)
  obtain ⟨⟨a1, a2, p⟩, hw⟩ := Option.isSome_iff_exists.mp h
  refine ⟨a1, a2, p, hw, ?_⟩
  simp only [runNeedlemanWunsch, hw, Option.map_some']

/-- A successful local run is exactly the reversal-packaging of a successful
walk from the recorded maximum cell with fuel `n + m`. -/
lemma runSmithWaterman_eq (s1 s2 : List Char) (sc : Scoring) :
    ∃ a1 a2 p,
      swWalk s1 s2 sc (s1.length + s2.length)
        (swMaxFold s1 s2 sc).2.1 (swMaxFold s1 s2 sc).2.2 = some (a1, a2, p) ∧
      runSmithWaterman s1 s2 sc = some
        { alignedSeq1 := a1.reverse
          alignedSeq2 := a2.reverse
          identity := calculateIdentity a1.reverse a2.reverse
          score := (swMaxFold s1 s2 sc).1
          path := p.reverse
          seq1 := s1
          seq2 := s2
          scoring := sc } := by
  obtain ⟨_, _, _, hb1, hb2, _⟩ := swMaxFold_spec s1 s2 sc
  have h := swWalk_total s1 s2 sc (s1.length + s2.length)
    (swMaxFold s1 s2 sc).2.1 (swMaxFold s1 s2 sc).2.2 (by omega) hb1 hb2
  obtain ⟨⟨a1, a2, p⟩, hw⟩ := Option.isSome_iff_exists.mp h
  refine ⟨a1, a2, p, hw, ?_⟩
  simp only [runSmithWaterman, hw, Option.map_some']

/-! ## Equal sequences under global mode (claim C3) -/

lemma matchValue_le (s1 s2 : List Char) (sc : Scoring) (hm : sc.matchS = 1)
    (hmm : sc.mismatch ≤ 1) (i j : ℕ) : matchValue s1 s2 sc i j ≤ 1 := by
  rw [matchValue]
  split <;> omega

/-- With `match = 1`, `mismatch ≤ 1` and `gap ≤ 0`, no cell of the global
matrix exceeds `min i j`. -/
lemma nwMatrix_le_min (s1 s2 : List Char) (sc : Scoring) (hm : sc.matchS = 1)
    (hmm : sc.mismatch ≤ 1) (hg : sc.gap ≤ 0) :
    ∀ i j, nwMatrix s1 s2 sc i j ≤ ((min i j : ℕ) : Int) := by
  intro i
  induction i with
  | zero =>
    intro j
    rw [nwMatrix_row0]
    have h0 : (0 : Int) ≤ (j : Int) := by positivity
    have : (j : Int) * sc.gap ≤ 0 := mul_nonpos_of_nonneg_of_nonpos h0 hg
    omega
  | succ i ih =>
    intro j
    induction j with
    | zero =>
      rw [nwMatrix_col0]
      have h0 : (0 : Int) ≤ ((i : Int) + 1) := by positivity
      have : ((i : Int) + 1) * sc.gap ≤ 0 := mul_nonpos_of_nonneg_of_nonpos h0 hg
      push_cast
      omega
    | succ j ihj =>
      have hd : nwDiagonal s1 s2 sc i j ≤ ((min i j : ℕ) : Int) + 1 := by
        rw [nwDiagonal]
        have h1 := matchValue_le s1 s2 sc hm hmm i j
        have h2 := ih j
        omega
      have hu : nwUp s1 s2 sc i j ≤ ((min (i + 1) (j + 1) : ℕ) : Int) := by
        rw [nwUp]
        have h2 := ih (j + 1)
        omega
      have hl : nwLeft s1 s2 sc i j ≤ ((min (i + 1) (j + 1) : ℕ) : Int) := by
        rw [nwLeft]
        omega
      rw [nwMatrix_succ_succ]
      split_ifs <;> omega

lemma matchValue_self (s : List Char) (sc : Scoring) (i : ℕ) :
    matchValue s s sc i i = sc.matchS := by
  rw [matchValue, if_pos rfl]

/-- On equal sequences with `match = 1`, `mismatch ≤ 1`, `gap ≤ 0`, the main
diagonal of the global matrix holds exactly `i`. -/
lemma nwMatrix_diag (s : List Char) (sc : Scoring) (hm : sc.matchS = 1)
    (hmm : sc.mismatch ≤ 1) (hg : sc.gap ≤ 0) :
    ∀ i, nwMatrix s s sc i i = (i : Int) := by
  intro i
  induction i with
  | zero => simp [nwMatrix]
  | succ i ih =>
    have hd : nwDiagonal s s sc i i = (i : Int) + 1 := by
      rw [nwDiagonal, matchValue_self, hm, ih]
    have hu : nwUp s s sc i i ≤ (i : Int) := by
      rw [nwUp]
      have := nwMatrix_le_min s s sc hm hmm hg i (i + 1)
      omega
    have hl : nwLeft s s sc i i ≤ (i : Int) := by
      rw [nwLeft]
      have := nwMatrix_le_min s s sc hm hmm hg (i + 1) i
      omega
    rw [nwMatrix_succ_succ, if_pos ⟨by omega, by omega⟩, hd]
    push_cast
    ring

/-- On equal sequences the recorded move at every diagonal cell is
`DIAGONAL`. -/
lemma nwTrace_diag (s : List Char) (sc : Scoring) (hm : sc.matchS = 1)
    (hmm : sc.mismatch ≤ 1) (hg : sc.gap ≤ 0) (i : ℕ) :
    nwTrace s s sc (i + 1) (i + 1) = Move.DIAGONAL := by
  have hd : nwDiagonal s s sc i i = (i : Int) + 1 := by
    rw [nwDiagonal, matchValue_self, hm, nwMatrix_diag s sc hm hmm hg]
  have hu : nwUp s s sc i i ≤ (i : Int) := by
    rw [nwUp]
    have := nwMatrix_le_min s s sc hm hmm hg i (i + 1)
    omega
  have hl : nwLeft s s sc i i ≤ (i : Int) := by
    rw [nwLeft]
    have := nwMatrix_le_min s s sc hm hmm hg (i + 1) i
    omega
  rw [nwTrace_succ_succ, if_pos ⟨by omega, by omega⟩]

/-- The diagonal path `(k, k), (k-1, k-1), ..., (0, 0)` in walk order. -/
def diagPath (k : ℕ) : List (ℕ × ℕ) :=
  (List.range (k + 1)).map (fun t => (k - t, k - t))

lemma diagPath_succ (k : ℕ) : diagPath (k + 1) = (k + 1, k + 1) :: diagPath k := by
  simp only [diagPath, List.range_succ_eq_map, List.map_cons, List.map_map]
  simp [Function.comp_def, Nat.succ_sub_succ]

/-- On equal sequences the global traceback from `(k, k)` walks the diagonal
and reproduces the first `k` characters (in walk order, i.e. reversed). -/
lemma nwWalk_diag (s : List Char) (sc : Scoring) (hm : sc.matchS = 1)
    (hmm : sc.mismatch ≤ 1) (hg : sc.gap ≤ 0) :
    ∀ k fuel, k ≤ fuel → k ≤ s.length →
      nwWalk s s sc fuel k k =
        some ((s.take k).reverse, (s.take k).reverse, diagPath k) := by
  intro k
  induction k with
  | zero =>
    intro fuel _ _
    cases fuel with
    | zero =>
      rw [nwWalk, if_neg (by omega)]
      simp [diagPath]
    | succ f =>
      rw [nwWalk, if_neg (by omega)]
      simp [diagPath]
  | succ k ih =>
    intro fuel hf hk
    obtain ⟨f, rfl⟩ : ∃ f, fuel = f + 1 := ⟨fuel - 1, by omega⟩
    have hklt : k < s.length := by omega
    have htk : (s.take (k + 1)).reverse = s.getD k '?' :: (s.take k).reverse := by
      rw [List.getD_eq_getElem s '?' hklt, List.take_succ, List.getElem?_eq_getElem hklt]
      simp
    rw [nwWalk, if_pos (by omega : 0 < k + 1 ∨ 0 < k + 1), if_pos ⟨hk, hk⟩,
      nwTrace_diag s sc hm hmm hg k]
    simp only [Nat.add_sub_cancel]
    rw [if_pos (show 1 ≤ k + 1 ∧ 1 ≤ k + 1 by omega)]
    rw [ih f (by omega) (by omega), Option.map_some']
    rw [diagPath_succ, htk]

/-- On a gap-marker-free list, every position matches itself. -/
lemma countAligned_self (s : List Char) (hnd : '-' ∉ s) :
    countAligned s s = s.length := by
  rw [countAligned]
  have : ∀ a ∈ List.range s.length,
      (decide (s.getD a '?' = s.getD a '*' ∧ s.getD a '?' ≠ '-')) = true := by
    intro a ha
    rw [List.mem_range] at ha
    have h1 : s.getD a '?' = s[a] := List.getD_eq_getElem s '?' ha
    have h2 : s.getD a '*' = s[a] := List.getD_eq_getElem s '*' ha
    have h3 : s[a] ≠ '-' := by
      intro hc
      exact hnd (hc ▸ List.getElem_mem ha)
    simp only [decide_eq_true_eq]
    rw [h1, h2]
    exact ⟨rfl, h3⟩
  rw [List.countP_eq_length.mpr this, List.length_range]

lemma calculateIdentity_self (s : List Char) (hne : s ≠ []) (hnd : '-' ∉ s) :
    calculateIdentity s s = 100 := by
  have hlen : s.length ≠ 0 := by
    simpa using fun h => hne (List.length_eq_zero.mp h)
  rw [calculateIdentity, if_neg hlen, countAligned_self s hnd]
  have : ((s.length : ℚ)) ≠ 0 := by exact_mod_cast hlen
  field_simp

/-! ## Claim theorems -/

/-- C1: In the matrix fill of both modes, for every interior cell the
recorded move is `DIAGONAL` whenever `diagonal ≥ up` and `diagonal ≥ left`,
otherwise `UP` whenever `up ≥ left`, otherwise `LEFT`; in local mode this
tie-break governs the move only for cells of strictly positive clamped
score, and in global mode the cell value equals the chosen candidate. -/
theorem claim_C1 (s1 s2 : List Char) (sc : Scoring) (i j : ℕ)
    (hi : i < s1.length) (hj : j < s2.length) :
    ((nwDiagonal s1 s2 sc i j ≥ nwUp s1 s2 sc i j ∧
        nwDiagonal s1 s2 sc i j ≥ nwLeft s1 s2 sc i j) →
      nwTrace s1 s2 sc (i + 1) (j + 1) = Move.DIAGONAL ∧
      nwMatrix s1 s2 sc (i + 1) (j + 1) = nwDiagonal s1 s2 sc i j) ∧
    (¬(nwDiagonal s1 s2 sc i j ≥ nwUp s1 s2 sc i j ∧
        nwDiagonal s1 s2 sc i j ≥ nwLeft s1 s2 sc i j) →
      nwUp s1 s2 sc i j ≥ nwLeft s1 s2 sc i j →
      nwTrace s1 s2 sc (i + 1) (j + 1) = Move.UP ∧
      nwMatrix s1 s2 sc (i + 1) (j + 1) = nwUp s1 s2 sc i j) ∧
    (¬(nwDiagonal s1 s2 sc i j ≥ nwUp s1 s2 sc i j ∧
        nwDiagonal s1 s2 sc i j ≥ nwLeft s1 s2 sc i j) →
      ¬(nwUp s1 s2 sc i j ≥ nwLeft s1 s2 sc i j) →
      nwTrace s1 s2 sc (i + 1) (j + 1) = Move.LEFT ∧
      nwMatrix s1 s2 sc (i + 1) (j + 1) = nwLeft s1 s2 sc i j) ∧
    (0 < swMatrix s1 s2 sc (i + 1) (j + 1) →
      ((swDiagonal s1 s2 sc i j ≥ swUp s1 s2 sc i j ∧
          swDiagonal s1 s2 sc i j ≥ swLeft s1 s2 sc i j) →
        swTrace s1 s2 sc (i + 1) (j + 1) = Move.DIAGONAL) ∧
      (¬(swDiagonal s1 s2 sc i j ≥ swUp s1 s2 sc i j ∧
          swDiagonal s1 s2 sc i j ≥ swLeft s1 s2 sc i j) →
        swUp s1 s2 sc i j ≥ swLeft s1 s2 sc i j →
        swTrace s1 s2 sc (i + 1) (j + 1) = Move.UP) ∧
      (¬(swDiagonal s1 s2 sc i j ≥ swUp s1 s2 sc i j ∧
          swDiagonal s1 s2 sc i j ≥ swLeft s1 s2 sc i j) →
        ¬(swUp s1 s2 sc i j ≥ swLeft s1 s2 sc i j) →
        swTrace s1 s2 sc (i + 1) (j + 1) = Move.LEFT)) := by
  refine ⟨?_, ?_, ?_, swTrace_tiebreak s1 s2 sc i j⟩
  · rintro ⟨h1, h2⟩
    rw [nwTrace_succ_succ, nwMatrix_succ_succ, if_pos ⟨h1, h2⟩, if_pos ⟨h1, h2⟩]
    exact ⟨rfl, rfl⟩
  · intro h1 h2
    rw [nwTrace_succ_succ, nwMatrix_succ_succ, if_neg h1, if_neg h1,
      if_pos h2, if_pos h2]
    exact ⟨rfl, rfl⟩
  · intro h1 h2
    rw [nwTrace_succ_succ, nwMatrix_succ_succ, if_neg h1, if_neg h1,
      if_neg h2, if_neg h2]
    exact ⟨rfl, rfl⟩

/-- C1 witness at a concrete interior cell, where the diagonal candidate
wins: the recorded move is `DIAGONAL` and the cell holds the diagonal
candidate. -/
theorem claim_C1_witness :
    nwTrace ['A', 'C'] ['A', 'G'] ⟨1, -1, -2⟩ 1 1 = Move.DIAGONAL ∧
    nwMatrix ['A', 'C'] ['A', 'G'] ⟨1, -1, -2⟩ 1 1 =
      nwDiagonal ['A', 'C'] ['A', 'G'] ⟨1, -1, -2⟩ 0 0 :=
  (claim_C1 ['A', 'C'] ['A', 'G'] ⟨1, -1, -2⟩ 0 0 (by decide) (by decide)).1
    ⟨by norm_num [nwDiagonal, nwUp, nwMatrix, matchValue],
     by norm_num [nwDiagonal, nwLeft, nwMatrix, matchValue]⟩

/-- C2: in local mode every interior cell value is `max(0, diagonal, up,
left)`; a clamped value of `0` records `STOP` (even when a raw candidate is
also `0`); a strictly positive value records the move chosen by the
diagonal-then-up-then-left tie-break over the raw candidates. -/
theorem claim_C2 (s1 s2 : List Char) (sc : Scoring) (i j : ℕ)
    (hi : i < s1.length) (hj : j < s2.length) :
    swMatrix s1 s2 sc (i + 1) (j + 1) =
      max 0 (max (swDiagonal s1 s2 sc i j)
        (max (swUp s1 s2 sc i j) (swLeft s1 s2 sc i j))) ∧
    (swMatrix s1 s2 sc (i + 1) (j + 1) = 0 →
      swTrace s1 s2 sc (i + 1) (j + 1) = Move.STOP) ∧
    (0 < swMatrix s1 s2 sc (i + 1) (j + 1) →
      ((swDiagonal s1 s2 sc i j ≥ swUp s1 s2 sc i j ∧
          swDiagonal s1 s2 sc i j ≥ swLeft s1 s2 sc i j) →
        swTrace s1 s2 sc (i + 1) (j + 1) = Move.DIAGONAL) ∧
      (¬(swDiagonal s1 s2 sc i j ≥ swUp s1 s2 sc i j ∧
          swDiagonal s1 s2 sc i j ≥ swLeft s1 s2 sc i j) →
        swUp s1 s2 sc i j ≥ swLeft s1 s2 sc i j →
        swTrace s1 s2 sc (i + 1) (j + 1) = Move.UP) ∧
      (¬(swDiagonal s1 s2 sc i j ≥ swUp s1 s2 sc i j ∧
          swDiagonal s1 s2 sc i j ≥ swLeft s1 s2 sc i j) →
        ¬(swUp s1 s2 sc i j ≥ swLeft s1 s2 sc i j) →
        swTrace s1 s2 sc (i + 1) (j + 1) = Move.LEFT)) := by
  refine ⟨?_, ?_, swTrace_tiebreak s1 s2 sc i j⟩
  · rw [swMatrix_succ_succ]
    omega
  · intro h0
    rw [swTrace_succ_succ, if_pos h0]

/-- C2 witness at a concrete interior cell whose clamped value is zero. -/
theorem claim_C2_witness :
    swMatrix ['A'] ['G'] ⟨1, -1, -1⟩ 1 1 =
      max 0 (max (swDiagonal ['A'] ['G'] ⟨1, -1, -1⟩ 0 0)
        (max (swUp ['A'] ['G'] ⟨1, -1, -1⟩ 0 0) (swLeft ['A'] ['G'] ⟨1, -1, -1⟩ 0 0))) ∧
    (swMatrix ['A'] ['G'] ⟨1, -1, -1⟩ 1 1 = 0 →
      swTrace ['A'] ['G'] ⟨1, -1, -1⟩ 1 1 = Move.STOP) :=
  ⟨(claim_C2 ['A'] ['G'] ⟨1, -1, -1⟩ 0 0 (by decide) (by decide)).1,
    (claim_C2 ['A'] ['G'] ⟨1, -1, -1⟩ 0 0 (by decide) (by decide)).2.1⟩

/-- C6: in global mode the boundary satisfies `matrix[i][0] = i * gap` with
`trace[i][0] = UP`, `matrix[0][j] = j * gap` with `trace[0][j] = LEFT`, and
the returned score is `matrix[n][m]`. -/
theorem claim_C6 (s1 s2 : List Char) (sc : Scoring) :
    (∀ i, 1 ≤ i → i ≤ s1.length →
      nwMatrix s1 s2 sc i 0 = (i : Int) * sc.gap ∧
      nwTrace s1 s2 sc i 0 = Move.UP) ∧
    (∀ j, 1 ≤ j → j ≤ s2.length →
      nwMatrix s1 s2 sc 0 j = (j : Int) * sc.gap ∧
      nwTrace s1 s2 sc 0 j = Move.LEFT) ∧
    (∃ r, runNeedlemanWunsch s1 s2 sc = some r ∧
      r.score = nwMatrix s1 s2 sc s1.length s2.length) := by
  refine ⟨?_, ?_, ?_⟩
  · intro i h1 _
    obtain ⟨i', rfl⟩ : ∃ i', i = i' + 1 := ⟨i - 1, by omega⟩
    exact ⟨nwMatrix_col0 s1 s2 sc (i' + 1), nwTrace_col0 s1 s2 sc i'⟩
  · intro j h1 _
    obtain ⟨j', rfl⟩ : ∃ j', j = j' + 1 := ⟨j - 1, by omega⟩
    exact ⟨nwMatrix_row0 s1 s2 sc (j' + 1), nwTrace_row0 s1 s2 sc j'⟩
  · obtain ⟨a1, a2, p, _, hr⟩ := runNeedlemanWunsch_eq s1 s2 sc
    exact ⟨_, hr, rfl⟩

/-- C6 witness at a concrete input. -/
theorem claim_C6_witness :
    (∀ i, 1 ≤ i → i ≤ (['A', 'C'] : List Char).length →
      nwMatrix ['A', 'C'] ['A'] ⟨1, -1, -2⟩ i 0 = (i : Int) * (-2) ∧
      nwTrace ['A', 'C'] ['A'] ⟨1, -1, -2⟩ i 0 = Move.UP) ∧
    (∃ r, runNeedlemanWunsch ['A', 'C'] ['A'] ⟨1, -1, -2⟩ = some r ∧
      r.score = nwMatrix ['A', 'C'] ['A'] ⟨1, -1, -2⟩ 2 1) :=
  ⟨(claim_C6 ['A', 'C'] ['A'] ⟨1, -1, -2⟩).1,
    (claim_C6 ['A', 'C'] ['A'] ⟨1, -1, -2⟩).2.2⟩

/-- C7: in both modes the two aligned strings have equal length, and the
stored path visits exactly one more cell than there are aligned positions. -/
theorem claim_C7 (s1 s2 : List Char) (sc : Scoring) :
    (∃ r, runNeedlemanWunsch s1 s2 sc = some r ∧
      r.alignedSeq1.length = r.alignedSeq2.length ∧
      r.path.length = r.alignedSeq1.length + 1) ∧
    (∃ r, runSmithWaterman s1 s2 sc = some r ∧
      r.alignedSeq1.length = r.alignedSeq2.length ∧
      r.path.length = r.alignedSeq1.length + 1) := by
  constructor
  · obtain ⟨a1, a2, p, hw, hr⟩ := runNeedlemanWunsch_eq s1 s2 sc
    obtain ⟨L1, L2, _, _⟩ := nwWalk_spec s1 s2 sc _ _ _ _ _ _ hw
    exact ⟨_, hr, by simpa using L1, by simpa using L2⟩
  · obtain ⟨a1, a2, p, hw, hr⟩ := runSmithWaterman_eq s1 s2 sc
    obtain ⟨L1, L2, _, _⟩ := swWalk_spec s1 s2 sc _ _ _ _ _ _ hw
    exact ⟨_, hr, by simpa using L1, by simpa using L2⟩

/-- C7 witness at a concrete input. -/
theorem claim_C7_witness :
    (∃ r, runNeedlemanWunsch ['A', 'C'] ['G'] ⟨1, -1, -1⟩ = some r ∧
      r.alignedSeq1.length = r.alignedSeq2.length ∧
      r.path.length = r.alignedSeq1.length + 1) ∧
    (∃ r, runSmithWaterman ['A', 'C'] ['G'] ⟨1, -1, -1⟩ = some r ∧
      r.alignedSeq1.length = r.alignedSeq2.length ∧
      r.path.length = r.alignedSeq1.length + 1) :=
  claim_C7 ['A', 'C'] ['G'] ⟨1, -1, -1⟩

/-- C10: both traceback loops are total and in-bounds for every input and
scoring scheme: the bounds-checked fuel-`n+m` walks (and hence both runs)
return a result. -/
theorem claim_C10 (s1 s2 : List Char) (sc : Scoring) :
    (runNeedlemanWunsch s1 s2 sc).isSome ∧ (runSmithWaterman s1 s2 sc).isSome := by
  constructor
  · obtain ⟨a1, a2, p, _, hr⟩ := runNeedlemanWunsch_eq s1 s2 sc
    rw [hr]
    rfl
  · obtain ⟨a1, a2, p, _, hr⟩ := runSmithWaterman_eq s1 s2 sc
    rw [hr]
    rfl

/-- C10 witness at a concrete input. -/
theorem claim_C10_witness :
    (runNeedlemanWunsch ['G', 'A'] ['A', 'A'] ⟨2, -3, -4⟩).isSome ∧
    (runSmithWaterman ['G', 'A'] ['A', 'A'] ⟨2, -3, -4⟩).isSome :=
  claim_C10 ['G', 'A'] ['A', 'A'] ⟨2, -3, -4⟩

lemma swMaxFold_zero (s1 s2 : List Char) (sc : Scoring)
    (h : (swMaxFold s1 s2 sc).1 = 0) : (swMaxFold s1 s2 sc).2 = (0, 0) := by
  rcases foldl_swMaxStep_spec s1 s2 sc (cellList s1.length s2.length) (0, 0, 0) with
    ⟨heq, _⟩ | ⟨l₁, p, l₂, _, hv, _, hlt, _, _⟩
  · have hres : swMaxFold s1 s2 sc = (0, 0, 0) := heq
    rw [hres]
  · exfalso
    have hv' : (swMaxFold s1 s2 sc).1 = swMatrix s1 s2 sc p.1 p.2 := hv
    have hlt' : (0 : Int) < swMatrix s1 s2 sc p.1 p.2 := by simpa using hlt
    omega

lemma swWalk_zero (s1 s2 : List Char) (sc : Scoring) (fuel : ℕ) :
    swWalk s1 s2 sc fuel 0 0 = some ([], [], [(0, 0)]) := by
  cases fuel <;>
    rw [swWalk, if_pos ⟨Nat.zero_le _, Nat.zero_le _⟩,
      if_neg (by rw [swMatrix_row0]; omega)]

/-- C3 is false as stated: the claim leaves `gap` unrestricted, but with the
equal sequences `"A"`, `match = +1`, `mismatch = -1` and `gap = +10`, the
boundary rows score `+10` per gap, the `UP` candidate wins the cell `(1,1)`
with value `20`, and the returned score is `20`, not `n = 1` (the identity
is then `0`, not `100`). -/
theorem claim_C3_counterexample :
    ¬((runNeedlemanWunsch ['A'] ['A'] ⟨1, -1, 10⟩).map (fun r => r.score) =
        some 1 ∧
      (runNeedlemanWunsch ['A'] ['A'] ⟨1, -1, 10⟩).map (fun r => r.identity) =
        some 100) := by
  have hs : (runNeedlemanWunsch ['A'] ['A'] ⟨1, -1, 10⟩).map (fun r => r.score) =
      some 20 := by
    simp [runNeedlemanWunsch, nwWalk, nwTrace, nwMatrix, matchValue]
  intro h
  rw [hs] at h
  exact absurd h.1 (by simp)

/-- C3 (amended): for every pair of equal non-empty sequences free of the
gap marker `'-'`, and every scoring scheme with `match = +1`,
`mismatch ≤ match` and `gap ≤ 0`, global mode returns `score = n` and
`identity = 100`.  (The original claim left `mismatch` and `gap`
unrestricted; a positive `gap` — or a `mismatch` above `match` — breaks it,
see the counterexample.) -/
theorem claim_C3_amended (s : List Char) (sc : Scoring) (hne : s ≠ [])
    (hnd : '-' ∉ s) (hm : sc.matchS = 1) (hmm : sc.mismatch ≤ 1)
    (hg : sc.gap ≤ 0) :
    ∃ r, runNeedlemanWunsch s s sc = some r ∧
      r.score = (s.length : Int) ∧ r.identity = 100 := by
  obtain ⟨a1, a2, p, hw, hr⟩ := runNeedlemanWunsch_eq s s sc
  have hd := nwWalk_diag s sc hm hmm hg s.length (s.length + s.length)
    (by omega) (le_refl _)
  rw [hd] at hw
  simp only [Option.some.injEq, Prod.mk.injEq] at hw
  obtain ⟨e1, e2, _⟩ := hw
  refine ⟨_, hr, ?_, ?_⟩
  · exact nwMatrix_diag s sc hm hmm hg s.length
  · show calculateIdentity a1.reverse a2.reverse = 100
    rw [← e1, ← e2, List.reverse_reverse, List.take_length]
    exact calculateIdentity_self s hne hnd

/-- C3 witness: equal sequences `"AC"` with `match = 1`, `mismatch = -1`,
`gap = -2`. -/
theorem claim_C3_witness :
    ∃ r, runNeedlemanWunsch ['A', 'C'] ['A', 'C'] ⟨1, -1, -2⟩ = some r ∧
      r.score = ((['A', 'C'] : List Char).length : Int) ∧ r.identity = 100 :=
  claim_C3_amended ['A', 'C'] ⟨1, -1, -2⟩ (by decide) (by decide) rfl
    (by decide) (by decide)

/-- C4: the local-mode score is the maximum value attained anywhere in the
matrix (not necessarily `matrix[n][m]`), and the traceback starts — i.e. the
stored start-to-end path ends — at the first cell in row-major order
attaining that maximum. -/
theorem claim_C4 (s1 s2 : List Char) (sc : Scoring) :
    ∃ r, runSmithWaterman s1 s2 sc = some r ∧
      (∀ i j, i ≤ s1.length → j ≤ s2.length →
        swMatrix s1 s2 sc i j ≤ r.score) ∧
      (∃ i j, i ≤ s1.length ∧ j ≤ s2.length ∧
        swMatrix s1 s2 sc i j = r.score) ∧
      ∃ mi mj, r.path.getLast? = some (mi, mj) ∧
        swMatrix s1 s2 sc mi mj = r.score ∧
        mi ≤ s1.length ∧ mj ≤ s2.length ∧
        (∀ i j, i ≤ s1.length → j ≤ s2.length → cellLt (i, j) (mi, mj) →
          swMatrix s1 s2 sc i j < r.score) := by
  obtain ⟨a1, a2, p, hw, hr⟩ := runSmithWaterman_eq s1 s2 sc
  obtain ⟨hnn, hub, hat, hb1, hb2, hfirst⟩ := swMaxFold_spec s1 s2 sc
  obtain ⟨_, _, hhead, _⟩ := swWalk_spec s1 s2 sc _ _ _ _ _ _ hw
  refine ⟨_, hr, hub, ⟨_, _, hb1, hb2, hat⟩,
    (swMaxFold s1 s2 sc).2.1, (swMaxFold s1 s2 sc).2.2, ?_, hat, hb1, hb2,
    hfirst⟩
  show p.reverse.getLast? = _
  rw [List.getLast?_reverse]
  exact hhead

/-- C4 witness at a concrete input with an interior maximum. -/
theorem claim_C4_witness :
    ∃ r, runSmithWaterman ['A'] ['A'] ⟨2, -1, -1⟩ = some r ∧
      (∀ i j, i ≤ (['A'] : List Char).length → j ≤ (['A'] : List Char).length →
        swMatrix ['A'] ['A'] ⟨2, -1, -1⟩ i j ≤ r.score) ∧
      (∃ i j, i ≤ (['A'] : List Char).length ∧ j ≤ (['A'] : List Char).length ∧
        swMatrix ['A'] ['A'] ⟨2, -1, -1⟩ i j = r.score) ∧
      ∃ mi mj, r.path.getLast? = some (mi, mj) ∧
        swMatrix ['A'] ['A'] ⟨2, -1, -1⟩ mi mj = r.score ∧
        mi ≤ (['A'] : List Char).length ∧ mj ≤ (['A'] : List Char).length ∧
        (∀ i j, i ≤ (['A'] : List Char).length →
          j ≤ (['A'] : List Char).length → cellLt (i, j) (mi, mj) →
          swMatrix ['A'] ['A'] ⟨2, -1, -1⟩ i j < r.score) :=
  claim_C4 ['A'] ['A'] ⟨2, -1, -1⟩

/-- C5: the local-mode score is always nonnegative, and when no cell of the
matrix is positive the aligned strings are empty, the score is `0`, and the
path is the single starting cell `(0, 0)`. -/
theorem claim_C5 (s1 s2 : List Char) (sc : Scoring) :
    ∃ r, runSmithWaterman s1 s2 sc = some r ∧ 0 ≤ r.score ∧
      ((∀ i j, i ≤ s1.length → j ≤ s2.length → swMatrix s1 s2 sc i j ≤ 0) →
        r.alignedSeq1 = [] ∧ r.alignedSeq2 = [] ∧ r.score = 0 ∧
        r.path = [(0, 0)]) := by
  obtain ⟨a1, a2, p, hw, hr⟩ := runSmithWaterman_eq s1 s2 sc
  obtain ⟨hnn, _, hat, hb1, hb2, _⟩ := swMaxFold_spec s1 s2 sc
  refine ⟨_, hr, hnn, ?_⟩
  intro hall
  have h0 : (swMaxFold s1 s2 sc).1 = 0 := by
    have := hall _ _ hb1 hb2
    omega
  have hc := swMaxFold_zero s1 s2 sc h0
  have h21 : (swMaxFold s1 s2 sc).2.1 = 0 := by rw [hc]
  have h22 : (swMaxFold s1 s2 sc).2.2 = 0 := by rw [hc]
  rw [h21, h22, swWalk_zero] at hw
  simp only [Option.some.injEq, Prod.mk.injEq] at hw
  obtain ⟨e1, e2, e3⟩ := hw
  subst e1; subst e2; subst e3
  exact ⟨rfl, rfl, h0, rfl⟩

/-- C5 witness: two sequences with no common character and the standard
scoring, where every cell clamps to zero. -/
theorem claim_C5_witness :
    ∃ r, runSmithWaterman ['A'] ['G'] ⟨1, -1, -1⟩ = some r ∧ 0 ≤ r.score ∧
      ((∀ i j, i ≤ (['A'] : List Char).length → j ≤ (['G'] : List Char).length →
          swMatrix ['A'] ['G'] ⟨1, -1, -1⟩ i j ≤ 0) →
        r.alignedSeq1 = [] ∧ r.alignedSeq2 = [] ∧ r.score = 0 ∧
        r.path = [(0, 0)]) :=
  claim_C5 ['A'] ['G'] ⟨1, -1, -1⟩

/-- C8: in both modes the identity field is `100 * matches /
alignmentLength` (a match being equal characters, neither the gap marker),
is `0` on an empty alignment, and always lies in `[0, 100]`. -/
theorem claim_C8 (s1 s2 : List Char) (sc : Scoring) :
    (∃ r, runNeedlemanWunsch s1 s2 sc = some r ∧
      r.identity = 100 * (countAligned r.alignedSeq1 r.alignedSeq2 : ℚ) /
        (r.alignedSeq1.length : ℚ) ∧
      (r.alignedSeq1.length = 0 → r.identity = 0) ∧
      0 ≤ r.identity ∧ r.identity ≤ 100) ∧
    (∃ r, runSmithWaterman s1 s2 sc = some r ∧
      r.identity = 100 * (countAligned r.alignedSeq1 r.alignedSeq2 : ℚ) /
        (r.alignedSeq1.length : ℚ) ∧
      (r.alignedSeq1.length = 0 → r.identity = 0) ∧
      0 ≤ r.identity ∧ r.identity ≤ 100) := by
  constructor
  · obtain ⟨a1, a2, p, hw, hr⟩ := runNeedlemanWunsch_eq s1 s2 sc
    obtain ⟨hf, h0, hge, hle⟩ := calculateIdentity_spec a1.reverse a2.reverse
    exact ⟨_, hr, hf, h0, hge, hle⟩
  · obtain ⟨a1, a2, p, hw, hr⟩ := runSmithWaterman_eq s1 s2 sc
    obtain ⟨hf, h0, hge, hle⟩ := calculateIdentity_spec a1.reverse a2.reverse
    exact ⟨_, hr, hf, h0, hge, hle⟩

/-- C8 witness at a concrete input. -/
theorem claim_C8_witness :
    (∃ r, runNeedlemanWunsch ['A', 'C'] ['A', 'G'] ⟨1, -1, -1⟩ = some r ∧
      r.identity = 100 * (countAligned r.alignedSeq1 r.alignedSeq2 : ℚ) /
        (r.alignedSeq1.length : ℚ) ∧
      (r.alignedSeq1.length = 0 → r.identity = 0) ∧
      0 ≤ r.identity ∧ r.identity ≤ 100) ∧
    (∃ r, runSmithWaterman ['A', 'C'] ['A', 'G'] ⟨1, -1, -1⟩ = some r ∧
      r.identity = 100 * (countAligned r.alignedSeq1 r.alignedSeq2 : ℚ) /
        (r.alignedSeq1.length : ℚ) ∧
      (r.alignedSeq1.length = 0 → r.identity = 0) ∧
      0 ≤ r.identity ∧ r.identity ≤ 100) :=
  claim_C8 ['A', 'C'] ['A', 'G'] ⟨1, -1, -1⟩

/-- C9: replaying the recorded trace from the traceback's start cell —
`(n, m)` in global mode, the recorded maximum cell in local mode — until the
mode's stop condition visits exactly the stored path in reverse order: the
stored path is the reversal of the replay. -/
theorem claim_C9 (s1 s2 : List Char) (sc : Scoring) :
    (∃ r, runNeedlemanWunsch s1 s2 sc = some r ∧
      r.path = (replayNW s1 s2 sc (s1.length + s2.length)
        s1.length s2.length).reverse) ∧
    (∃ r, runSmithWaterman s1 s2 sc = some r ∧
      r.path = (replaySW s1 s2 sc (s1.length + s2.length)
        (swMaxFold s1 s2 sc).2.1 (swMaxFold s1 s2 sc).2.2).reverse) := by
  constructor
  · obtain ⟨a1, a2, p, hw, hr⟩ := runNeedlemanWunsch_eq s1 s2 sc
    obtain ⟨_, _, _, hrep⟩ := nwWalk_spec s1 s2 sc _ _ _ _ _ _ hw
    exact ⟨_, hr, congrArg List.reverse hrep⟩
  · obtain ⟨a1, a2, p, hw, hr⟩ := runSmithWaterman_eq s1 s2 sc
    obtain ⟨_, _, _, hrep⟩ := swWalk_spec s1 s2 sc _ _ _ _ _ _ hw
    exact ⟨_, hr, congrArg List.reverse hrep⟩

/-- C9 witness at a concrete input. -/
theorem claim_C9_witness :
    (∃ r, runNeedlemanWunsch ['A', 'C'] ['A'] ⟨1, -1, -1⟩ = some r ∧
      r.path = (replayNW ['A', 'C'] ['A'] ⟨1, -1, -1⟩
        ((['A', 'C'] : List Char).length + (['A'] : List Char).length)
        (['A', 'C'] : List Char).length (['A'] : List Char).length).reverse) ∧
    (∃ r, runSmithWaterman ['A', 'C'] ['A'] ⟨1, -1, -1⟩ = some r ∧
      r.path = (replaySW ['A', 'C'] ['A'] ⟨1, -1, -1⟩
        ((['A', 'C'] : List Char).length + (['A'] : List Char).length)
        (swMaxFold ['A', 'C'] ['A'] ⟨1, -1, -1⟩).2.1
        (swMaxFold ['A', 'C'] ['A'] ⟨1, -1, -1⟩).2.2).reverse) :=
  claim_C9 ['A', 'C'] ['A'] ⟨1, -1, -1⟩

end SeqAlign
